import Mathlib

/-!
A shallow embedding of the Huffman codec in `src/Huffman.py` (class `Huffman`),
together with proofs of the behavioural properties stated in the
specification: round-trip correctness, the pregenerated code table being
free of overlapping code words, code-word lengths on concrete alphabets,
the single-symbol special case, the compression-ratio formula, and the
error behaviour of each operation.

Modelling conventions:
* Symbols are `Char` (the program is exercised on Python strings);
  bit patterns are `List Char` over the characters `'0'`/`'1'`,
  mirroring the character-per-bit representation of the source.
* The Python `dict` is modelled as an association list whose observable
  lookup (`dfind`) returns the first binding of a key; `dinsert` replaces
  an existing binding in place and otherwise appends, matching dict
  update semantics.
* Python tuples `(weight, symbol)` (leaves) and `(weight, left, right)`
  (internal nodes) become the inductive `Node`; `cmpNode` reproduces
  Python 2 tuple comparison on these values, including the detail that a
  string (the symbol in slot 1 of a leaf) compares below a tuple (the
  child in slot 1 of an internal node) when weights tie, because Python 2
  orders values of different types by type name.
* `heapq.heappop` removes a minimal element of the heap; the working
  multiset determines the removed value (all elements arising here are
  pairwise distinct), so the heap is modelled as a list from which
  `findMin` selects a minimal element, removed with `List.erase`.
* `Counter(data).items()` iterates in an unspecified (hash) order; the
  embedding fixes first-occurrence order (`List.dedup`).  The tree build
  consumes the entries as a multiset (each step removes the two minimal
  elements), so the chosen enumeration order is immaterial to every
  property proved below.
* Exceptions become `Except String`; methods that mutate `self` return
  the updated instance.
-/

/-- A bit pattern: a sequence of the characters `'0'` and `'1'`,
as in the source's character-per-bit strings. -/
abbrev Pattern := List Char

/-- The code table (`self.dictionary`): symbol to bit pattern. -/
abbrev Dict := List (Char × Pattern)

/-- Equality of modelled call results is decidable, so concrete runs can be
checked by evaluation. -/
instance {ε α : Type} [DecidableEq ε] [DecidableEq α] : DecidableEq (Except ε α) := fun a b =>
  match a, b with
  | .error e₁, .error e₂ =>
    if h : e₁ = e₂ then .isTrue (by rw [h])
    else .isFalse (fun hc => h (Except.error.inj hc))
  | .error _, .ok _ => .isFalse (fun hc => Except.noConfusion hc)
  | .ok _, .error _ => .isFalse (fun hc => Except.noConfusion hc)
  | .ok a₁, .ok a₂ =>
    if h : a₁ = a₂ then .isTrue (by rw [h])
    else .isFalse (fun hc => h (Except.ok.inj hc))

/-- First-match lookup in an association list, the observable behaviour of
`self.dictionary[c]` / `c in self.dictionary`. -/
def dfind : Dict → Char → Option Pattern
  | [], _ => none
  | (k, v) :: d, s => if k = s then some v else dfind d s

/-- Python dict update `d[k] = p`: replace the binding in place when the key
exists, otherwise append a new binding. -/
def dinsert : Dict → Char → Pattern → Dict
  | [], s, p => [(s, p)]
  | (k, v) :: d, s, p => if k = s then (k, p) :: d else (k, v) :: dinsert d s p

/-- A node of the transient Huffman tree, mirroring the Python tuples:
`leaf w s` is `(w, s)` and `node w l r` is `(w, l, r)`. -/
inductive Node where
  | leaf (w : Nat) (s : Char)
  | node (w : Nat) (l r : Node)
deriving DecidableEq, Repr

/-- The weight slot (index 0) of a node tuple. -/
def Node.weight : Node → Nat
  | .leaf w _ => w
  | .node w _ _ => w

/-- Leaf symbols of a node, left to right. -/
def Node.leafSyms : Node → List Char
  | .leaf _ s => [s]
  | .node _ l r => l.leafSyms ++ r.leafSyms

/-- Number of tuples in a node, used as a termination measure. -/
def Node.size : Node → Nat
  | .leaf _ _ => 1
  | .node _ l r => 1 + l.size + r.size

/-- Python 2 comparison of the node tuples: lexicographic on components;
on weight ties a leaf's symbol (a string) compares below an internal
node's child (a tuple), since Python 2 orders distinct types by type
name and `str` precedes `tuple`. -/
def cmpNode : Node → Node → Ordering
  | .leaf w₁ s₁, .leaf w₂ s₂ => (compare w₁ w₂).then (compare s₁ s₂)
  | .leaf w₁ _, .node w₂ _ _ => (compare w₁ w₂).then .lt
  | .node w₁ _ _, .leaf w₂ _ => (compare w₁ w₂).then .gt
  | .node w₁ l₁ r₁, .node w₂ l₂ r₂ =>
      (compare w₁ w₂).then ((cmpNode l₁ l₂).then (cmpNode r₁ r₂))

/-- A minimal element of `m :: l` under `cmpNode` (what `heappop` removes). -/
def findMin : Node → List Node → Node
  | m, [] => m
  | m, x :: xs => if cmpNode x m = .lt then findMin x xs else findMin m xs

/-- One iteration of the merge loop in `__huffman_tree`: pop the two minimal
nodes, push `(w₁ + w₂, leftnode, rightnode)` with the first popped node as the
left child. -/
def buildStep (l : List Node) : List Node :=
  match l with
  | [] => []
  | a :: rest =>
    let m₁ := findMin a rest
    match (a :: rest).erase m₁ with
    | [] => a :: rest
    | b :: rest₁ =>
      let m₂ := findMin b rest₁
      Node.node (m₁.weight + m₂.weight) m₁ m₂ :: (b :: rest₁).erase m₂

/-- The merge loop of `__huffman_tree`, run with explicit fuel (each pass
shrinks the list by one, so `l.length` fuel always suffices). -/
def buildLoop : Nat → List Node → List Node
  | 0, l => l
  | fuel + 1, l => if l.length ≤ 1 then l else buildLoop fuel (buildStep l)

/-- The state of a `Huffman` instance: `self.data` and `self.dictionary`. -/
structure Huffman where
  data : List Char
  dictionary : Dict
deriving DecidableEq, Repr

namespace Huffman

/-- `Huffman.__init__`: reject empty data, start with an empty dictionary. -/
def init (data : List Char) : Except String Huffman :=
  if data.length = 0 then Except.error "Invalid data."
  else Except.ok ⟨data, []⟩

/-- `__create_frequency`: `[(count, symbol)]`, one entry per distinct symbol
of the data (`Counter` enumeration fixed to first-occurrence order). -/
def create_frequency (h : Huffman) : List Node :=
  h.data.dedup.map fun s => Node.leaf (h.data.count s) s

/-- `__huffman_tree`: reject an empty frequency table, then merge until one
node remains and return it (`frequency[0]`). -/
def huffman_tree (frequency : List Node) : Except String Node :=
  if frequency.length = 0 then Except.error "Invalid frequency table."
  else
    match buildLoop frequency.length frequency with
    | t :: _ => Except.ok t
    | [] => Except.error "Invalid frequency table."

/-- Total node size of a traversal work list, a termination measure for
`codeLoop`. -/
def stackSize (st : List (Node × Pattern)) : Nat :=
  (st.map fun pr => pr.1.size).sum

/-- The explicit-stack traversal loop of `__huffman_code`: pop an entry; at a
leaf record the accumulated path for its symbol; at an internal node push the
left child with `'0'` appended and then the right child with `'1'` appended
(so the right child is on top and is processed first).  The loop runs with
explicit fuel so that it evaluates by structural recursion; each pass
consumes one tuple, so `stackSize` fuel always suffices. -/
def codeLoop : Nat → List (Node × Pattern) → Dict → Dict
  | 0, _, d => d
  | _, [], d => d
  | fuel + 1, (Node.leaf _ s, pre) :: st, d => codeLoop fuel st (dinsert d s pre)
  | fuel + 1, (Node.node _ l r, pre) :: st, d =>
      codeLoop fuel ((r, pre ++ ['1']) :: (l, pre ++ ['0']) :: st) d

/-- `__huffman_code`: seed the traversal with `'1'` when the root is a single
leaf (`len(tree) == 2`) and with the empty path otherwise; codes are merged
into the existing dictionary. -/
def huffman_code (tree : Node) (d : Dict) : Dict :=
  match tree with
  | .leaf w s => codeLoop (stackSize [(Node.leaf w s, ['1'])]) [(Node.leaf w s, ['1'])] d
  | .node w l r => codeLoop (stackSize [(Node.node w l r, [])]) [(Node.node w l r, [])] d

/-- The character loop of `__encode`, with the accumulated output string. -/
def encodeLoop (d : Dict) : List Char → Pattern → Except String Pattern
  | [], acc => Except.ok acc
  | c :: cs, acc =>
      match dfind d c with
      | some p => encodeLoop d cs (acc ++ p)
      | none => Except.error "Invalid huffman key."

/-- `__encode`: reject an empty dictionary, then concatenate the code word of
each data symbol, failing on a symbol with no code. -/
def encodePriv (h : Huffman) : Except String Pattern :=
  if h.dictionary.length = 0 then
    Except.error "Huffman encoding table has not been created."
  else encodeLoop h.dictionary h.data []

/-- `encode_huffman`: build frequencies, tree and code table (mutating
`self.dictionary`), then encode; returns the updated instance with the
encoded stream. -/
def encode_huffman (h : Huffman) : Except String (Huffman × Pattern) :=
  match huffman_tree h.create_frequency with
  | Except.error e => Except.error e
  | Except.ok root =>
      let h' : Huffman := ⟨h.data, huffman_code root h.dictionary⟩
      match h'.encodePriv with
      | Except.error e => Except.error e
      | Except.ok value => Except.ok (h', value)

/-- `get_dictionary`. -/
def get_dictionary (h : Huffman) : Dict := h.dictionary

/-- `set_dictionary`. -/
def set_dictionary (h : Huffman) (value : Dict) : Huffman :=
  ⟨h.data, value⟩

/-- `get_reversed_dictionary`: `{v: k for k, v in dict.items()}` — the pairs
swapped; on duplicate patterns the later binding overwrites the earlier. -/
def get_reversed_dictionary (h : Huffman) : List (Pattern × Char) :=
  h.get_dictionary.map fun kv => (kv.2, kv.1)

end Huffman

/-- Lookup in the reversed dictionary: the binding of the *last* matching
pair wins, matching dict-comprehension overwrite order. -/
def rfindLast : List (Pattern × Char) → Pattern → Option Char
  | [], _ => none
  | (p, s) :: r, q =>
      match rfindLast r q with
      | some s' => some s'
      | none => if p = q then some s else none

/-- The bit loop of `decode_huffman`: grow the candidate buffer one bit at a
time; on an exact match emit the symbol and reset the buffer; any unmatched
buffer left at end of input is discarded. -/
def decodeLoop (rev : List (Pattern × Char)) : List Char → Pattern → List Char
  | [], _ => []
  | b :: bs, buf =>
      match rfindLast rev (buf ++ [b]) with
      | some s => s :: decodeLoop rev bs []
      | none => decodeLoop rev bs (buf ++ [b])

namespace Huffman

/-- `decode_huffman`: reject an empty encoded value, then run the greedy
bit-buffer loop against the reversed dictionary. -/
def decode_huffman (h : Huffman) (encodedvalue : List Char) : Except String (List Char) :=
  if encodedvalue.length = 0 then Except.error "Invalid encoded value."
  else Except.ok (decodeLoop h.get_reversed_dictionary encodedvalue [])

/-- `get_compression_ratio`: `1 - len(encoded) / float(len(data) * 8)`,
with rational arithmetic standing in for Python floats (the quantities in
all claims are exactly representable). -/
def get_compression_ratio (h : Huffman) (encodedValue : List Char) : Except String ℚ :=
  if encodedValue.length = 0 then
    Except.error "Invalid argument \"encodedValue\"."
  else if h.data.length = 0 then
    Except.error "Invalid member \"data\"."
  else
    Except.ok (1 - (encodedValue.length : ℚ) / ((h.data.length : ℚ) * 8))

end Huffman

/-! ### Derived definitions used by the verification -/

/-- Folding a list of `(symbol, pattern)` assignments into a dictionary, the
net effect of the assignment statements performed by `codeLoop`. -/
def insertEntries (d : Dict) (es : List (Char × Pattern)) : Dict :=
  es.foldl (fun d' sp => dinsert d' sp.1 sp.2) d

/-- The `(symbol, code)` assignments performed by the traversal of a node
seeded with accumulated path `pre`, in execution order (the right subtree is
on top of the stack, hence first). -/
def entries : Node → Pattern → List (Char × Pattern)
  | .leaf _ s, pre => [(s, pre)]
  | .node _ l r, pre => entries r (pre ++ ['1']) ++ entries l (pre ++ ['0'])

/-- The assignments performed by a whole work list, in execution order. -/
def entriesStack : List (Node × Pattern) → List (Char × Pattern)
  | [] => []
  | (t, pre) :: st => entries t pre ++ entriesStack st

/-- The seed path used by `__huffman_code`: `'1'` for a bare leaf
(`len(tree) == 2`), empty otherwise. -/
def rootPath : Node → Pattern
  | .leaf _ _ => ['1']
  | .node _ _ _ => []

/-- Leaf symbols of every node in a working list, in order. -/
def leafSymsAll : List Node → List Char
  | [] => []
  | n :: l => n.leafSyms ++ leafSymsAll l

/-- The concatenation of the code words of a symbol sequence under a
dictionary, the value built by `__encode`'s loop when every symbol is
present. -/
def concatCodes (d : Dict) : List Char → Pattern
  | [] => []
  | c :: cs => (dfind d c).getD [] ++ concatCodes d cs

def alphabet : List Char := "abcdefghijklmnopqrstuvwxyz".toList

/-- The code table the pipeline produces for `alphabet`. -/
def alphaDict : Dict :=
  [('t', "11111".toList), ('s', "11110".toList), ('r', "11101".toList), ('q', "11100".toList),
   ('p', "11011".toList), ('o', "11010".toList), ('n', "11001".toList), ('m', "11000".toList),
   ('l', "10111".toList), ('k', "10110".toList), ('j', "10101".toList), ('i', "10100".toList),
   ('h', "10011".toList), ('g', "10010".toList), ('f', "10001".toList), ('e', "10000".toList),
   ('d', "01111".toList), ('c', "01110".toList), ('b', "01101".toList), ('a', "01100".toList),
   ('z', "0101".toList), ('y', "0100".toList), ('x', "0011".toList), ('w', "0010".toList),
   ('v', "0001".toList), ('u', "0000".toList)]

/-- The encoded stream the pipeline produces for `alphabet`. -/
def alphaStream : Pattern :=
  "0110001101011100111110000100011001010011101001010110110101111100011001110101101111100111011111011111000000010010001101000101".toList

/-! ### Dictionary lemmas -/

theorem dfind_mem {d : Dict} {s : Char} {p : Pattern} (h : dfind d s = some p) :
    (s, p) ∈ d := by
  induction d with
  | nil => simp [dfind] at h
  | cons kv d ih =>
    obtain ⟨k, v⟩ := kv
    by_cases hk : k = s
    · subst hk
      simp [dfind] at h
      simp [h]
    · simp [dfind, hk] at h
      exact List.mem_cons_of_mem _ (ih h)

theorem dfind_eq_none_iff {d : Dict} {s : Char} :
    dfind d s = none ↔ ∀ pr ∈ d, pr.1 ≠ s := by
  induction d with
  | nil => simp [dfind]
  | cons kv d ih =>
    obtain ⟨k, v⟩ := kv
    by_cases hk : k = s
    · subst hk
      simp [dfind]
    · simp [dfind, hk, ih]

theorem dinsert_ne_nil (d : Dict) (s : Char) (p : Pattern) : dinsert d s p ≠ [] := by
  cases d with
  | nil => simp [dinsert]
  | cons kv d =>
    obtain ⟨k, v⟩ := kv
    by_cases hk : k = s <;> simp [dinsert, hk]

theorem dfind_dinsert_self (d : Dict) (s : Char) (p : Pattern) :
    dfind (dinsert d s p) s = some p := by
  induction d with
  | nil => simp [dinsert, dfind]
  | cons kv d ih =>
    obtain ⟨k, v⟩ := kv
    by_cases hk : k = s <;> simp [dinsert, dfind, hk, ih]

theorem dfind_dinsert_ne (d : Dict) {s k : Char} (p : Pattern) (hne : k ≠ s) :
    dfind (dinsert d k p) s = dfind d s := by
  induction d with
  | nil => simp [dinsert, dfind, hne]
  | cons kv d ih =>
    obtain ⟨k', v⟩ := kv
    by_cases hk : k' = k
    · subst hk
      simp [dinsert, dfind, hne]
    · by_cases hs : k' = s
      · subst hs
        simp [dinsert, dfind, hk]
      · simp [dinsert, dfind, hk, hs, ih]

theorem dinsert_of_find_none {d : Dict} {k : Char} (p : Pattern)
    (h : dfind d k = none) : dinsert d k p = d ++ [(k, p)] := by
  induction d with
  | nil => simp [dinsert]
  | cons kv d ih =>
    obtain ⟨k', v⟩ := kv
    by_cases hk : k' = k
    · subst hk
      simp [dfind] at h
    · simp [dfind, hk] at h
      simp [dinsert, hk, ih h]


theorem insertEntries_nil (d : Dict) : insertEntries d [] = d := rfl

theorem insertEntries_cons (d : Dict) (sp : Char × Pattern) (es : List (Char × Pattern)) :
    insertEntries d (sp :: es) = insertEntries (dinsert d sp.1 sp.2) es := rfl

theorem insertEntries_append (d : Dict) (es₁ es₂ : List (Char × Pattern)) :
    insertEntries d (es₁ ++ es₂) = insertEntries (insertEntries d es₁) es₂ := by
  simp [insertEntries, List.foldl_append]

theorem insertEntries_ne_nil {d : Dict} {es : List (Char × Pattern)}
    (h : d ≠ [] ∨ es ≠ []) : insertEntries d es ≠ [] := by
  induction es generalizing d with
  | nil => simpa [insertEntries] using h.resolve_right (by simp)
  | cons sp es ih =>
    rw [insertEntries_cons]
    exact ih (Or.inl (dinsert_ne_nil _ _ _))

theorem insertEntries_find_not_mem {es : List (Char × Pattern)} {s : Char}
    (h : s ∉ es.map Prod.fst) (d : Dict) :
    dfind (insertEntries d es) s = dfind d s := by
  induction es generalizing d with
  | nil => rfl
  | cons sp es ih =>
    simp only [List.map_cons, List.mem_cons] at h
    push_neg at h
    rw [insertEntries_cons, ih h.2, dfind_dinsert_ne _ _ (fun hk => h.1 hk.symm)]

theorem insertEntries_find_mem {es : List (Char × Pattern)} {s : Char} {p : Pattern}
    (hnd : (es.map Prod.fst).Nodup) (hmem : (s, p) ∈ es) (d : Dict) :
    dfind (insertEntries d es) s = some p := by
  induction es generalizing d with
  | nil => simp at hmem
  | cons sp es ih =>
    simp only [List.map_cons, List.nodup_cons] at hnd
    rcases List.mem_cons.mp hmem with heq | htl
    · subst heq
      rw [insertEntries_cons, insertEntries_find_not_mem hnd.1, dfind_dinsert_self]
    · rw [insertEntries_cons]
      exact ih hnd.2 htl _

theorem insertEntries_nil_eq {es : List (Char × Pattern)}
    (hnd : (es.map Prod.fst).Nodup) : insertEntries [] es = es := by
  suffices h : ∀ d : Dict, (∀ k ∈ es.map Prod.fst, dfind d k = none) →
      insertEntries d es = d ++ es by
    simpa using h [] (by simp [dfind])
  induction es with
  | nil => simp [insertEntries]
  | cons sp es ih =>
    intro d hd
    obtain ⟨s, p⟩ := sp
    simp only [List.map_cons, List.nodup_cons] at hnd
    rw [insertEntries_cons, dinsert_of_find_none p (hd s (by simp)),
      ih hnd.2 _ ?_, List.append_assoc]
    · simp
    · intro k hk
      have hne : s ≠ k := fun h => hnd.1 (h ▸ hk)
      rw [dfind_eq_none_iff]
      intro pr hpr
      rcases List.mem_append.mp hpr with hpr | hpr
      · exact (dfind_eq_none_iff.mp (hd k (by simp [hk]))) pr hpr
      · simp only [List.mem_singleton] at hpr
        subst hpr
        exact hne

/-! ### Code-table traversal: the stack loop as a list of assignments -/



theorem stackSize_zero {st : List (Node × Pattern)} (h : Huffman.stackSize st = 0) :
    st = [] := by
  cases st with
  | nil => rfl
  | cons pr st =>
    exfalso
    obtain ⟨t, pre⟩ := pr
    have ht : 1 ≤ t.size := by
      cases t with
      | leaf w s => simp [Node.size]
      | node w l r => simp [Node.size]; omega
    simp only [Huffman.stackSize, List.map_cons, List.sum_cons] at h
    omega

theorem codeLoop_stack : ∀ (fuel : Nat) (st : List (Node × Pattern)) (d : Dict),
    Huffman.stackSize st ≤ fuel →
    Huffman.codeLoop fuel st d = insertEntries d (entriesStack st)
  | 0, st, d, hle => by
    have : st = [] := stackSize_zero (Nat.le_zero.mp hle)
    subst this
    rfl
  | fuel + 1, [], d, _ => by
    rw [entriesStack, insertEntries_nil]
    rfl
  | fuel + 1, (Node.leaf w s, pre) :: st, d, hle => by
    rw [Huffman.codeLoop, entriesStack, entries]
    have hle' : Huffman.stackSize st ≤ fuel := by
      simp only [Huffman.stackSize, List.map_cons, List.sum_cons, Node.size] at hle ⊢
      omega
    rw [codeLoop_stack fuel st _ hle']
    rfl
  | fuel + 1, (Node.node w l r, pre) :: st, d, hle => by
    rw [Huffman.codeLoop, entriesStack, entries]
    have hle' : Huffman.stackSize ((r, pre ++ ['1']) :: (l, pre ++ ['0']) :: st) ≤ fuel := by
      simp only [Huffman.stackSize, List.map_cons, List.sum_cons, Node.size] at hle ⊢
      omega
    rw [codeLoop_stack fuel _ _ hle', entriesStack, entriesStack, List.append_assoc]


theorem huffman_code_entries (t : Node) (d : Dict) :
    Huffman.huffman_code t d = insertEntries d (entries t (rootPath t)) := by
  cases t with
  | leaf w s =>
    rw [show Huffman.huffman_code (Node.leaf w s) d =
      Huffman.codeLoop (Huffman.stackSize [(Node.leaf w s, ['1'])])
        [(Node.leaf w s, ['1'])] d from rfl]
    rw [codeLoop_stack _ _ _ (Nat.le_refl _), entriesStack, entriesStack,
      List.append_nil, rootPath]
  | node w l r =>
    rw [show Huffman.huffman_code (Node.node w l r) d =
      Huffman.codeLoop (Huffman.stackSize [(Node.node w l r, [])])
        [(Node.node w l r, [])] d from rfl]
    rw [codeLoop_stack _ _ _ (Nat.le_refl _), entriesStack, entriesStack,
      List.append_nil, rootPath]

theorem entries_ne_nil (t : Node) (pre : Pattern) : entries t pre ≠ [] := by
  cases t with
  | leaf w s => simp [entries]
  | node w l r => simp [entries, entries_ne_nil r]

theorem entries_shape {t : Node} {pre : Pattern} {sp : Char × Pattern}
    (h : sp ∈ entries t pre) : ∃ tail, sp.2 = pre ++ tail := by
  induction t generalizing pre with
  | leaf w s =>
    simp only [entries, List.mem_singleton] at h
    exact ⟨[], by simp [h]⟩
  | node w l r ihl ihr =>
    simp only [entries, List.mem_append] at h
    rcases h with h | h
    · obtain ⟨tail, htail⟩ := ihr h
      exact ⟨'1' :: tail, by simp [htail]⟩
    · obtain ⟨tail, htail⟩ := ihl h
      exact ⟨'0' :: tail, by simp [htail]⟩

theorem entries_fst_perm (t : Node) (pre : Pattern) :
    ((entries t pre).map Prod.fst).Perm t.leafSyms := by
  induction t generalizing pre with
  | leaf w s => simp [entries, Node.leafSyms]
  | node w l r ihl ihr =>
    simp only [entries, Node.leafSyms, List.map_append]
    exact ((ihr _).append (ihl _)).trans List.perm_append_comm

theorem entries_nonempty_pat {t : Node} {pre : Pattern} (hpre : pre ≠ [])
    {sp : Char × Pattern} (h : sp ∈ entries t pre) : sp.2 ≠ [] := by
  obtain ⟨tail, htail⟩ := entries_shape h
  simp [htail, hpre]

/-- Code words assigned by one traversal never overlap: within the list of
assignments, no pattern is a prefix of another pattern. -/
theorem entries_pairwise (t : Node) (pre : Pattern) :
    (entries t pre).Pairwise
      (fun a b => ¬ (a.2 <+: b.2) ∧ ¬ (b.2 <+: a.2)) := by
  induction t generalizing pre with
  | leaf w s => simp [entries]
  | node w l r ihl ihr =>
    rw [entries, List.pairwise_append]
    refine ⟨ihr _, ihl _, ?_⟩
    intro a ha b hb
    obtain ⟨ta, hta⟩ := entries_shape ha
    obtain ⟨tb, htb⟩ := entries_shape hb
    rw [hta, htb]
    constructor
    · rintro ⟨u, hu⟩
      simp only [List.append_assoc] at hu
      rw [List.append_right_inj] at hu
      simp at hu
    · rintro ⟨u, hu⟩
      simp only [List.append_assoc] at hu
      rw [List.append_right_inj] at hu
      simp at hu

/-! ### Tree construction: the merge loop preserves leaf symbols -/

theorem findMin_mem (m : Node) (l : List Node) : findMin m l ∈ m :: l := by
  induction l generalizing m with
  | nil => simp [findMin]
  | cons x xs ih =>
    rw [findMin]
    by_cases hc : cmpNode x m = .lt
    · simp only [hc, if_pos]
      rcases List.mem_cons.mp (ih x) with h | h
      · simp [h]
      · simp [List.mem_cons_of_mem, h]
    · simp only [hc, if_neg, not_false_iff]
      rcases List.mem_cons.mp (ih m) with h | h
      · simp [h]
      · simp [List.mem_cons_of_mem, h]


theorem leafSymsAll_perm {l l' : List Node} (h : l.Perm l') :
    (leafSymsAll l).Perm (leafSymsAll l') := by
  induction h with
  | nil => exact List.Perm.refl _
  | cons x _ ih => exact ih.append_left x.leafSyms
  | swap x y l =>
    rw [leafSymsAll, leafSymsAll, leafSymsAll, leafSymsAll,
      ← List.append_assoc, ← List.append_assoc]
    exact List.perm_append_comm.append_right _
  | trans _ _ ih₁ ih₂ => exact ih₁.trans ih₂


theorem erase_findMin_cons {a : Node} {rest : List Node} (h : 2 ≤ (a :: rest).length) :
    ∃ b rest₁, (a :: rest).erase (findMin a rest) = b :: rest₁ := by
  have hlen := List.length_erase_of_mem (findMin_mem a rest)
  cases herase : (a :: rest).erase (findMin a rest) with
  | nil =>
    rw [herase] at hlen
    simp only [List.length_nil, List.length_cons] at hlen h
    omega
  | cons b rest₁ => exact ⟨b, rest₁, rfl⟩

theorem buildStep_cons {a b : Node} {rest rest₁ : List Node}
    (h : (a :: rest).erase (findMin a rest) = b :: rest₁) :
    buildStep (a :: rest) =
      Node.node ((findMin a rest).weight + (findMin b rest₁).weight)
        (findMin a rest) (findMin b rest₁) :: (b :: rest₁).erase (findMin b rest₁) := by
  rw [buildStep, h]

theorem buildStep_length {l : List Node} (h : 2 ≤ l.length) :
    (buildStep l).length + 1 = l.length := by
  cases l with
  | nil => simp at h
  | cons a rest =>
    obtain ⟨b, rest₁, herase⟩ := erase_findMin_cons h
    rw [buildStep_cons herase]
    have hlen₁ := List.length_erase_of_mem (findMin_mem a rest)
    have hlen₂ := List.length_erase_of_mem (findMin_mem b rest₁)
    rw [herase] at hlen₁
    simp only [List.length_cons] at hlen₁ hlen₂ h ⊢
    omega

theorem buildStep_syms {l : List Node} (h : 2 ≤ l.length) :
    (leafSymsAll (buildStep l)).Perm (leafSymsAll l) := by
  cases l with
  | nil => simp at h
  | cons a rest =>
    obtain ⟨b, rest₁, herase⟩ := erase_findMin_cons h
    rw [buildStep_cons herase]
    have hp₁ : (a :: rest).Perm (findMin a rest :: b :: rest₁) := by
      have := List.perm_cons_erase (findMin_mem a rest)
      rwa [herase] at this
    have hp₂ : (b :: rest₁).Perm
        (findMin b rest₁ :: (b :: rest₁).erase (findMin b rest₁)) :=
      List.perm_cons_erase (findMin_mem b rest₁)
    have step₁ : leafSymsAll (Node.node ((findMin a rest).weight + (findMin b rest₁).weight)
        (findMin a rest) (findMin b rest₁) :: (b :: rest₁).erase (findMin b rest₁)) =
        (findMin a rest).leafSyms ++ leafSymsAll
          (findMin b rest₁ :: (b :: rest₁).erase (findMin b rest₁)) := by
      rw [leafSymsAll, leafSymsAll, Node.leafSyms, List.append_assoc]
    rw [step₁]
    have step₂ : ((findMin a rest).leafSyms ++ leafSymsAll
        (findMin b rest₁ :: (b :: rest₁).erase (findMin b rest₁))).Perm
        ((findMin a rest).leafSyms ++ leafSymsAll (b :: rest₁)) :=
      (leafSymsAll_perm hp₂.symm).append_left _
    refine step₂.trans ?_
    have step₃ : (findMin a rest).leafSyms ++ leafSymsAll (b :: rest₁) =
        leafSymsAll (findMin a rest :: b :: rest₁) := by simp [leafSymsAll]
    rw [step₃]
    exact (leafSymsAll_perm hp₁).symm

theorem buildLoop_spec : ∀ (fuel : Nat) (l : List Node), l ≠ [] → l.length ≤ fuel + 1 →
    (buildLoop fuel l).length = 1 ∧ (leafSymsAll (buildLoop fuel l)).Perm (leafSymsAll l)
  | 0, l, hne, hlen => by
    rw [buildLoop]
    have : l.length = 1 := by
      cases l with
      | nil => simp at hne
      | cons a rest =>
        simp only [List.length_cons] at hlen ⊢
        omega
    exact ⟨this, List.Perm.refl _⟩
  | fuel + 1, l, hne, hlen => by
    rw [buildLoop]
    by_cases hle : l.length ≤ 1
    · have : l.length = 1 := by
        cases l with
        | nil => simp at hne
        | cons a rest =>
          simp only [List.length_cons] at hle ⊢
          omega
      simp only [hle, if_pos]
      exact ⟨this, List.Perm.refl _⟩
    · simp only [hle, if_neg, not_false_iff]
      push_neg at hle
      have h2 : 2 ≤ l.length := hle
      have hstep := buildStep_length h2
      have hne' : buildStep l ≠ [] := by
        intro hnil
        rw [hnil] at hstep
        simp at hstep
        omega
      have hlen' : (buildStep l).length ≤ fuel + 1 := by omega
      obtain ⟨h1, hperm⟩ := buildLoop_spec fuel (buildStep l) hne' hlen'
      exact ⟨h1, hperm.trans (buildStep_syms h2)⟩

theorem huffman_tree_spec {freq : List Node} (hne : freq ≠ []) :
    ∃ t : Node, Huffman.huffman_tree freq = Except.ok t ∧
      (t.leafSyms).Perm (leafSymsAll freq) := by
  have hlen0 : freq.length ≠ 0 := by simpa using fun h => hne (List.length_eq_zero.mp h)
  obtain ⟨h1, hperm⟩ := buildLoop_spec freq.length freq hne (by omega)
  rw [Huffman.huffman_tree]
  simp only [hlen0, if_neg, not_false_iff]
  cases hres : buildLoop freq.length freq with
  | nil => rw [hres] at h1; simp at h1
  | cons t rest =>
    rw [hres] at h1 hperm
    have : rest = [] := by
      simp only [List.length_cons] at h1
      exact List.length_eq_zero.mp (by omega)
    subst this
    refine ⟨t, rfl, ?_⟩
    simpa [leafSymsAll] using hperm

theorem create_frequency_syms (data : List Char) (d : Dict) :
    leafSymsAll (Huffman.create_frequency ⟨data, d⟩) = data.dedup := by
  show leafSymsAll (data.dedup.map fun s => Node.leaf (data.count s) s) = data.dedup
  induction data.dedup with
  | nil => rfl
  | cons s rest ih => simp [leafSymsAll, Node.leafSyms, ih]

theorem create_frequency_ne_nil {data : List Char} (hne : data ≠ []) (d : Dict) :
    Huffman.create_frequency ⟨data, d⟩ ≠ [] := by
  show data.dedup.map (fun s => Node.leaf (data.count s) s) ≠ []
  simp [hne]

/-! ### The encoder loop -/


theorem encodeLoop_ok {d : Dict} : ∀ {cs : List Char}, (∀ c ∈ cs, (dfind d c).isSome = true) →
    ∀ acc : Pattern, Huffman.encodeLoop d cs acc = Except.ok (acc ++ concatCodes d cs)
  | [], _, acc => by simp [Huffman.encodeLoop, concatCodes]
  | c :: cs, hall, acc => by
    have hc : (dfind d c).isSome = true := hall c (by simp)
    obtain ⟨p, hp⟩ := Option.isSome_iff_exists.mp hc
    simp only [Huffman.encodeLoop, hp]
    have ih := encodeLoop_ok (fun c' hc' => hall c' (List.mem_cons_of_mem _ hc')) (acc ++ p)
    rw [ih]
    simp [concatCodes, hp, List.append_assoc]

theorem encodeLoop_missing {d : Dict} : ∀ {cs : List Char} {c : Char}, c ∈ cs →
    dfind d c = none → ∀ acc : Pattern,
    Huffman.encodeLoop d cs acc = Except.error "Invalid huffman key."
  | c' :: cs, c, hmem, hnone, acc => by
    rw [Huffman.encodeLoop]
    cases hfind : dfind d c' with
    | none => rfl
    | some p =>
      rcases List.mem_cons.mp hmem with heq | htl
      · subst heq
        rw [hfind] at hnone
        exact absurd hnone (by simp)
      · exact encodeLoop_missing htl hnone (acc ++ p)

/-! ### The complete encode pipeline -/

/-- Specification of `encode_huffman` for a non-empty data sequence and an
arbitrary starting dictionary: the built tree carries exactly the distinct
data symbols, the traversal's assignments are folded into the starting
dictionary, and the returned stream concatenates the code word of every data
symbol in order. -/
theorem encode_huffman_spec (data : List Char) (d₀ : Dict) (hne : data ≠ []) :
    ∃ t : Node,
      Huffman.huffman_tree (Huffman.create_frequency ⟨data, d₀⟩) = Except.ok t ∧
      (t.leafSyms).Perm data.dedup ∧
      Huffman.encode_huffman ⟨data, d₀⟩ =
        Except.ok (⟨data, insertEntries d₀ (entries t (rootPath t))⟩,
          concatCodes (insertEntries d₀ (entries t (rootPath t))) data) := by
  obtain ⟨t, htree, hperm⟩ := huffman_tree_spec (create_frequency_ne_nil hne d₀)
  rw [create_frequency_syms] at hperm
  refine ⟨t, htree, hperm, ?_⟩
  have hkeys : ((entries t (rootPath t)).map Prod.fst).Perm data.dedup :=
    (entries_fst_perm t _).trans hperm
  have hnd : ((entries t (rootPath t)).map Prod.fst).Nodup :=
    hkeys.nodup_iff.mpr data.nodup_dedup
  have hcover : ∀ c ∈ data, (dfind (insertEntries d₀ (entries t (rootPath t))) c).isSome = true := by
    intro c hc
    have hmem : c ∈ (entries t (rootPath t)).map Prod.fst :=
      hkeys.mem_iff.mpr (List.mem_dedup.mpr hc)
    obtain ⟨⟨c₁, p⟩, hsp, hfst⟩ := List.mem_map.mp hmem
    simp only at hfst
    subst hfst
    rw [insertEntries_find_mem hnd hsp]
    rfl
  have hdictne : insertEntries d₀ (entries t (rootPath t)) ≠ [] :=
    insertEntries_ne_nil (Or.inr (entries_ne_nil t _))
  have henc : Huffman.encodePriv ⟨data, insertEntries d₀ (entries t (rootPath t))⟩ =
      Except.ok (concatCodes (insertEntries d₀ (entries t (rootPath t))) data) := by
    rw [Huffman.encodePriv]
    rw [if_neg (by simpa using fun hl => hdictne (List.length_eq_zero.mp hl))]
    simpa using encodeLoop_ok hcover []
  simp only [Huffman.encode_huffman, htree]
  rw [show Huffman.huffman_code t d₀ = insertEntries d₀ (entries t (rootPath t)) from
    huffman_code_entries t d₀]
  rw [henc]

/-! ### Reversed dictionary and decoding -/

theorem rfindLast_mem {rev : List (Pattern × Char)} {q : Pattern} {s : Char}
    (h : rfindLast rev q = some s) : (q, s) ∈ rev := by
  induction rev with
  | nil => simp [rfindLast] at h
  | cons ps rev ih =>
    obtain ⟨p, s₀⟩ := ps
    rw [rfindLast] at h
    cases hr : rfindLast rev q with
    | some s' =>
      rw [hr] at h
      simp only [Option.some_inj] at h
      subst h
      exact List.mem_cons_of_mem _ (ih hr)
    | none =>
      rw [hr] at h
      by_cases hp : p = q
      · rw [if_pos hp] at h
        simp only [Option.some_inj] at h
        simp [hp.symm, h]
      · rw [if_neg hp] at h
        simp at h

theorem rfindLast_eq_none_iff {rev : List (Pattern × Char)} {q : Pattern} :
    rfindLast rev q = none ↔ ∀ pr ∈ rev, pr.1 ≠ q := by
  induction rev with
  | nil => simp [rfindLast]
  | cons ps rev ih =>
    obtain ⟨p, s₀⟩ := ps
    rw [rfindLast]
    cases hr : rfindLast rev q with
    | some s' =>
      constructor
      · intro h
        simp at h
      · intro hall
        exact absurd rfl (hall (q, s') (List.mem_cons_of_mem _ (rfindLast_mem hr)))
    | none =>
      by_cases hp : p = q
      · rw [if_pos hp]
        constructor
        · intro h
          simp at h
        · intro hall
          exact absurd hp (hall (p, s₀) (by simp))
      · rw [if_neg hp]
        constructor
        · intro _ pr hpr
          rcases List.mem_cons.mp hpr with hh | hh
          · subst hh
            exact hp
          · exact (ih.mp hr) pr hh
        · intro _
          rfl

theorem rfindLast_of_mem {rev : List (Pattern × Char)} {q : Pattern} {s : Char}
    (h : (q, s) ∈ rev) (hnd : (rev.map Prod.fst).Nodup) : rfindLast rev q = some s := by
  induction rev with
  | nil => simp at h
  | cons ps rev ih =>
    obtain ⟨p, s₀⟩ := ps
    simp only [List.map_cons, List.nodup_cons] at hnd
    rw [rfindLast]
    rcases List.mem_cons.mp h with hh | hh
    · obtain ⟨hq, hs⟩ := Prod.mk.injEq .. ▸ hh
      have hnone : rfindLast rev q = none := by
        rw [rfindLast_eq_none_iff]
        intro pr hpr hfst
        exact hnd.1 (hq ▸ hfst ▸ List.mem_map_of_mem Prod.fst hpr)
      rw [hnone, if_pos hq.symm, hs]
    · rw [ih hh hnd.2]

/-- Scanning one complete code word: starting from any split of the word
`p = p₁ ++ p₂` with buffer `p₁`, if no nonempty proper leading slice of `p`
matches the reversed dictionary but `p` itself decodes to `c`, the loop
emits `c` and continues on the rest with an empty buffer. -/
theorem decodeLoop_word {rev : List (Pattern × Char)} {p : Pattern} {c : Char}
    (hmatch : rfindLast rev p = some c)
    (hpre : ∀ q : Pattern, q ≠ [] → q.length < p.length → q <+: p →
      rfindLast rev q = none) :
    ∀ (p₂ p₁ : Pattern), p₁ ++ p₂ = p → p₂ ≠ [] →
      ∀ rest : List Char, decodeLoop rev (p₂ ++ rest) p₁ = c :: decodeLoop rev rest [] := by
  intro p₂
  induction p₂ with
  | nil => intro p₁ _ hne₂; exact absurd rfl hne₂
  | cons b bs ih =>
    intro p₁ happ _ rest
    rw [List.cons_append, decodeLoop]
    cases bs with
    | nil =>
      have hbuf : p₁ ++ [b] = p := by simpa using happ
      simp only [hbuf, hmatch, List.nil_append]
    | cons b' bs' =>
      have hq : rfindLast rev (p₁ ++ [b]) = none := by
        apply hpre
        · simp
        · rw [← happ]
          simp only [List.length_append, List.length_cons, List.length_nil]
          omega
        · exact ⟨b' :: bs', by rw [← happ]; simp⟩
      simp only [hq]
      exact ih (p₁ ++ [b]) (by rw [← happ]; simp) (by simp) rest

/-- Decoding a concatenation of code words recovers the encoded sequence,
provided each code word is nonempty, decodes to its symbol, and has no
nonempty strictly shorter leading slice in the reversed dictionary. -/
theorem decodeLoop_codes {rev : List (Pattern × Char)} {D : Dict} :
    ∀ S : List Char,
      (∀ c ∈ S, ∃ p : Pattern, dfind D c = some p ∧ p ≠ [] ∧
        rfindLast rev p = some c ∧
        (∀ q : Pattern, q ≠ [] → q.length < p.length → q <+: p →
          rfindLast rev q = none)) →
      decodeLoop rev (concatCodes D S) [] = S := by
  intro S
  induction S with
  | nil =>
    intro _
    rw [concatCodes, decodeLoop]
  | cons c cs ih =>
    intro H
    obtain ⟨p, hfind, hne, hmatch, hpre⟩ := H c (by simp)
    rw [concatCodes, hfind]
    have := decodeLoop_word hmatch hpre p [] (by simp) hne (concatCodes D cs)
    simp only [List.nil_append] at this
    rw [Option.getD_some, this, ih (fun c' hc' => H c' (List.mem_cons_of_mem _ hc'))]

theorem rootEntries_nonempty_pat (t : Node) {sp : Char × Pattern}
    (h : sp ∈ entries t (rootPath t)) : sp.2 ≠ [] := by
  cases t with
  | leaf w s => exact entries_nonempty_pat (by simp [rootPath]) h
  | node w l r =>
    rw [rootPath, entries] at h
    rcases List.mem_append.mp h with h | h
    · exact entries_nonempty_pat (by simp) h
    · exact entries_nonempty_pat (by simp) h

/-! ### Claim theorems -/

/-- C1: for every non-empty symbol sequence, constructing a codec with it,
calling `encode_huffman`, and calling `decode_huffman` on the returned
encoded stream yields exactly the original sequence. -/
theorem huffman_round_trip (data : List Char) (hne : data ≠ []) :
    ∃ (h h' : Huffman) (e : List Char),
      Huffman.init data = Except.ok h ∧
      h.encode_huffman = Except.ok (h', e) ∧
      h'.decode_huffman e = Except.ok data := by
  have hlen : ¬ data.length = 0 := fun hl => hne (List.length_eq_zero.mp hl)
  obtain ⟨t, htree, hperm, henc⟩ := encode_huffman_spec data [] hne
  have hkeys : ((entries t (rootPath t)).map Prod.fst).Perm data.dedup :=
    (entries_fst_perm t _).trans hperm
  have hnd : ((entries t (rootPath t)).map Prod.fst).Nodup :=
    hkeys.nodup_iff.mpr data.nodup_dedup
  have hD : insertEntries [] (entries t (rootPath t)) = entries t (rootPath t) :=
    insertEntries_nil_eq hnd
  rw [hD] at henc
  have hpw := entries_pairwise t (rootPath t)
  have hsym : Symmetric (fun a b : Char × Pattern => ¬(a.2 <+: b.2) ∧ ¬(b.2 <+: a.2)) :=
    fun a b hab => ⟨hab.2, hab.1⟩
  have hrevnd : (((entries t (rootPath t)).map
      (fun kv : Char × Pattern => (kv.2, kv.1))).map Prod.fst).Nodup := by
    rw [List.map_map]
    show ((entries t (rootPath t)).map Prod.snd).Pairwise (· ≠ ·)
    rw [List.pairwise_map]
    refine hpw.imp ?_
    intro a b hab he
    exact hab.1 (by rw [he])
  have hcond : ∀ c ∈ data, ∃ p : Pattern, dfind (entries t (rootPath t)) c = some p ∧
      p ≠ [] ∧
      rfindLast ((entries t (rootPath t)).map (fun kv => (kv.2, kv.1))) p = some c ∧
      (∀ q : Pattern, q ≠ [] → q.length < p.length → q <+: p →
        rfindLast ((entries t (rootPath t)).map (fun kv => (kv.2, kv.1))) q = none) := by
    intro c hc
    have hmem : c ∈ (entries t (rootPath t)).map Prod.fst :=
      hkeys.mem_iff.mpr (List.mem_dedup.mpr hc)
    obtain ⟨⟨c₁, p⟩, hsp, hfst⟩ := List.mem_map.mp hmem
    simp only at hfst
    subst hfst
    have hfind : dfind (entries t (rootPath t)) c₁ = some p := by
      rw [← hD]
      exact insertEntries_find_mem hnd hsp []
    refine ⟨p, hfind, rootEntries_nonempty_pat t hsp, ?_, ?_⟩
    · exact rfindLast_of_mem (List.mem_map_of_mem _ hsp) hrevnd
    · intro q hq hlt hqp
      rw [rfindLast_eq_none_iff]
      intro pr hpr hfq
      obtain ⟨sp, hsp', hspeq⟩ := List.mem_map.mp hpr
      have hsp2 : sp.2 = q := by rw [← hspeq] at hfq; exact hfq
      have hne' : sp ≠ (c₁, p) := by
        intro heq
        rw [heq] at hsp2
        simp only at hsp2
        rw [hsp2] at hlt
        exact lt_irrefl _ hlt
      have hR := (hpw.forall hsym) hsp' hsp hne'
      exact hR.1 (hsp2 ▸ hqp)
  refine ⟨⟨data, []⟩, ⟨data, entries t (rootPath t)⟩, concatCodes (entries t (rootPath t)) data,
    ?_, henc, ?_⟩
  · rw [Huffman.init, if_neg hlen]
  · have hdec := decodeLoop_codes data hcond
    have hene : concatCodes (entries t (rootPath t)) data ≠ [] := by
      cases data with
      | nil => exact absurd rfl hne
      | cons c cs =>
        obtain ⟨p, hfind, hpne, _, _⟩ := hcond c (by simp)
        rw [concatCodes, hfind, Option.getD_some]
        simp [hpne]
    rw [Huffman.decode_huffman,
      if_neg (by simpa using fun hl => hene (List.length_eq_zero.mp hl))]
    rw [show (⟨data, entries t (rootPath t)⟩ : Huffman).get_reversed_dictionary =
      (entries t (rootPath t)).map (fun kv => (kv.2, kv.1)) from rfl]
    rw [hdec]

/-- C3: for every non-empty input sequence, the code table generated by
`encode_huffman` on a freshly constructed codec is free of overlapping code
words: of two distinct symbols' code words, neither is a leading slice of
the other. -/
theorem table_no_code_overlap (data : List Char) (hne : data ≠ []) :
    ∀ (h h' : Huffman) (e : List Char),
      Huffman.init data = Except.ok h →
      h.encode_huffman = Except.ok (h', e) →
      ∀ (s₁ s₂ : Char) (p₁ p₂ : Pattern),
        dfind h'.dictionary s₁ = some p₁ →
        dfind h'.dictionary s₂ = some p₂ →
        s₁ ≠ s₂ → ¬ (p₁ <+: p₂) := by
  have hlen : ¬ data.length = 0 := fun hl => hne (List.length_eq_zero.mp hl)
  intro h h' e hinit henc' s₁ s₂ p₁ p₂ hf₁ hf₂ hss
  rw [Huffman.init, if_neg hlen] at hinit
  have hh : h = ⟨data, []⟩ := (Except.ok.inj hinit).symm
  subst hh
  obtain ⟨t, htree, hperm, henc⟩ := encode_huffman_spec data [] hne
  have hkeys : ((entries t (rootPath t)).map Prod.fst).Perm data.dedup :=
    (entries_fst_perm t _).trans hperm
  have hnd : ((entries t (rootPath t)).map Prod.fst).Nodup :=
    hkeys.nodup_iff.mpr data.nodup_dedup
  have hD : insertEntries [] (entries t (rootPath t)) = entries t (rootPath t) :=
    insertEntries_nil_eq hnd
  rw [hD] at henc
  have hpair := Except.ok.inj (henc.symm.trans henc')
  have hh' : h' = ⟨data, entries t (rootPath t)⟩ := (congrArg Prod.fst hpair).symm
  subst hh'
  have hm₁ : (s₁, p₁) ∈ entries t (rootPath t) := dfind_mem hf₁
  have hm₂ : (s₂, p₂) ∈ entries t (rootPath t) := dfind_mem hf₂
  have hpw := entries_pairwise t (rootPath t)
  have hsym : Symmetric (fun a b : Char × Pattern => ¬(a.2 <+: b.2) ∧ ¬(b.2 <+: a.2)) :=
    fun a b hab => ⟨hab.2, hab.1⟩
  have hne' : (s₁, p₁) ≠ (s₂, p₂) := fun heq => hss (congrArg Prod.fst heq)
  exact ((hpw.forall hsym) hm₁ hm₂ hne').1

/-! ### Encoded length (C9) -/

theorem concatCodes_length (D : Dict) : ∀ S : List Char,
    (concatCodes D S).length = (S.map fun c => ((dfind D c).getD []).length).sum
  | [] => rfl
  | c :: cs => by
    rw [concatCodes]
    simp [concatCodes_length D cs]

theorem sum_map_eq_dedup_sum (data : List Char) (f : Char → Nat) :
    (data.map f).sum = (data.dedup.map fun s => data.count s * f s).sum := by
  rw [Finset.sum_list_map_count]
  have h1 := List.sum_toFinset (fun s => data.count s * f s) data.nodup_dedup
  have h2 : data.dedup.toFinset = data.toFinset := by
    apply Finset.ext
    intro a
    simp [List.mem_toFinset, List.mem_dedup]
  rw [← h1, h2]
  simp [smul_eq_mul]

/-- C9: for every non-empty input, the encoded stream's length is the sum
over distinct symbols of (occurrence count × code-word length). -/
theorem encoded_length_sum (data : List Char) (hne : data ≠ []) :
    ∀ (h h' : Huffman) (e : List Char),
      Huffman.init data = Except.ok h →
      h.encode_huffman = Except.ok (h', e) →
      e.length = (data.dedup.map fun s =>
        data.count s * ((dfind h'.dictionary s).getD []).length).sum := by
  have hlen : ¬ data.length = 0 := fun hl => hne (List.length_eq_zero.mp hl)
  intro h h' e hinit henc'
  rw [Huffman.init, if_neg hlen] at hinit
  have hh : h = ⟨data, []⟩ := (Except.ok.inj hinit).symm
  subst hh
  obtain ⟨t, htree, hperm, henc⟩ := encode_huffman_spec data [] hne
  have hpair := Except.ok.inj (henc.symm.trans henc')
  have hh' : h' = ⟨data, insertEntries [] (entries t (rootPath t))⟩ :=
    (congrArg Prod.fst hpair).symm
  have he : e = concatCodes (insertEntries [] (entries t (rootPath t))) data :=
    (congrArg Prod.snd hpair).symm
  subst hh'
  subst he
  rw [concatCodes_length]
  exact sum_map_eq_dedup_sum data _

/-- C10: `encode_huffman` merges the generated codes into an externally set
dictionary rather than replacing it: any key that is not a symbol of the
data keeps its original bit pattern. -/
theorem set_dictionary_merge (data : List Char) (hne : data ≠ []) (T : Dict) (k : Char)
    (hk : k ∉ data) :
    ∀ h : Huffman, Huffman.init data = Except.ok h →
      ∃ (h' : Huffman) (e : List Char),
        (h.set_dictionary T).encode_huffman = Except.ok (h', e) ∧
        dfind h'.dictionary k = dfind T k := by
  have hlen : ¬ data.length = 0 := fun hl => hne (List.length_eq_zero.mp hl)
  intro h hinit
  rw [Huffman.init, if_neg hlen] at hinit
  have hh : h = ⟨data, []⟩ := (Except.ok.inj hinit).symm
  subst hh
  obtain ⟨t, htree, hperm, henc⟩ := encode_huffman_spec data T hne
  refine ⟨_, _, henc, ?_⟩
  apply insertEntries_find_not_mem
  intro hmem
  have hkeys : ((entries t (rootPath t)).map Prod.fst).Perm data.dedup :=
    (entries_fst_perm t _).trans hperm
  exact hk (List.mem_dedup.mp (hkeys.mem_iff.mp hmem))

/-! ### The single-symbol special case (C5) -/

theorem dedup_replicate (c : Char) : ∀ n : Nat, 1 ≤ n → (List.replicate n c).dedup = [c]
  | 1, _ => by simp
  | n + 2, _ => by
    rw [List.replicate_succ, List.dedup_cons_of_mem (by simp [List.mem_replicate])]
    exact dedup_replicate c (n + 1) (by omega)

theorem create_frequency_replicate (c : Char) (n : Nat) (hn : 1 ≤ n) :
    Huffman.create_frequency ⟨List.replicate n c, []⟩ = [Node.leaf n c] := by
  show (List.replicate n c).dedup.map _ = _
  rw [dedup_replicate c n hn]
  simp

theorem encodeLoop_single (c : Char) : ∀ (n : Nat) (acc : Pattern),
    Huffman.encodeLoop [(c, ['1'])] (List.replicate n c) acc =
      Except.ok (acc ++ List.replicate n '1')
  | 0, acc => by simp [Huffman.encodeLoop]
  | n + 1, acc => by
    have hf : dfind [(c, ['1'])] c = some ['1'] := by simp [dfind]
    rw [List.replicate_succ]
    simp only [Huffman.encodeLoop, hf]
    rw [encodeLoop_single c n (acc ++ ['1'])]
    simp [List.replicate_succ]

/-- Running `encode_huffman` on `n ≥ 1` copies of one symbol: the code table
gets the single entry `(c, "1")` and the stream is `n` ones. -/
theorem encode_replicate (c : Char) (n : Nat) (hn : 1 ≤ n) :
    Huffman.encode_huffman ⟨List.replicate n c, []⟩ =
      Except.ok (⟨List.replicate n c, [(c, ['1'])]⟩, List.replicate n '1') := by
  have hfreq := create_frequency_replicate c n hn
  have htree : Huffman.huffman_tree [Node.leaf n c] = Except.ok (Node.leaf n c) := rfl
  have hcode : Huffman.huffman_code (Node.leaf n c) [] = [(c, ['1'])] := rfl
  have hpriv : Huffman.encodePriv ⟨List.replicate n c, [(c, ['1'])]⟩ =
      Except.ok (List.replicate n '1') := by
    rw [Huffman.encodePriv, if_neg (by simp)]
    simpa using encodeLoop_single c n []
  simp only [Huffman.encode_huffman, hfreq, htree, hcode, hpriv]

/-- C5: input of one symbol repeated `n ≥ 1` times: construction succeeds,
the generated code table is exactly `[(c, "1")]`, and the encoded stream
has length `n`. -/
theorem single_symbol_case (c : Char) (n : Nat) (hn : 1 ≤ n) :
    ∃ (h h' : Huffman) (e : List Char),
      Huffman.init (List.replicate n c) = Except.ok h ∧
      h.encode_huffman = Except.ok (h', e) ∧
      h'.dictionary = [(c, ['1'])] ∧
      e.length = n := by
  refine ⟨⟨List.replicate n c, []⟩, ⟨List.replicate n c, [(c, ['1'])]⟩,
    List.replicate n '1', ?_, encode_replicate c n hn, rfl, by simp⟩
  rw [Huffman.init, if_neg (by simp; omega)]

/-- C6: `get_compression_ratio` computes `1 - len(encoded) / (len(data) * 8)`
whenever both inputs are non-empty; in particular, for 26 copies of one
symbol encoded by the instance itself, the ratio is `7/8` (= 0.875). -/
theorem compression_ratio_formula :
    (∀ (h : Huffman) (e : List Char), e ≠ [] → h.data ≠ [] →
      h.get_compression_ratio e =
        Except.ok (1 - (e.length : ℚ) / ((h.data.length : ℚ) * 8))) ∧
    (∃ (h h' : Huffman) (e : List Char),
      Huffman.init (List.replicate 26 'a') = Except.ok h ∧
      h.encode_huffman = Except.ok (h', e) ∧
      h'.get_compression_ratio e = Except.ok ((7 : ℚ) / 8)) := by
  constructor
  · intro h e he hd
    rw [Huffman.get_compression_ratio,
      if_neg (by simpa using fun hl => he (List.length_eq_zero.mp hl)),
      if_neg (by simpa using fun hl => hd (List.length_eq_zero.mp hl))]
  · refine ⟨⟨List.replicate 26 'a', []⟩, ⟨List.replicate 26 'a', [('a', ['1'])]⟩,
      List.replicate 26 '1', rfl, encode_replicate 'a' 26 (by omega), ?_⟩
    rw [Huffman.get_compression_ratio, if_neg (by simp), if_neg (by simp)]
    norm_num

/-- C7: construction with an empty data sequence, decoding an empty stream,
and a ratio call with an empty stream all fail with the corresponding
input-validation error; none of these calls returns normally. -/
theorem invalid_input_errors :
    Huffman.init ([] : List Char) = Except.error "Invalid data." ∧
    (∀ h : Huffman, h.decode_huffman [] = Except.error "Invalid encoded value.") ∧
    (∀ h : Huffman, h.get_compression_ratio [] =
      Except.error "Invalid argument \"encodedValue\".") :=
  ⟨rfl, fun _ => rfl, fun _ => rfl⟩

/-- C8: if the stream-encoding step (`__encode`) runs with a populated
dictionary lacking a code for some symbol of the data, it fails with the
missing-code error. -/
theorem missing_code_error (h : Huffman) (hdict : h.dictionary ≠ []) (c : Char)
    (hc : c ∈ h.data) (hmiss : dfind h.dictionary c = none) :
    h.encodePriv = Except.error "Invalid huffman key." := by
  rw [Huffman.encodePriv,
    if_neg (by simpa using fun hl => hdict (List.length_eq_zero.mp hl))]
  exact encodeLoop_missing hc hmiss []

/-! ### Concrete runs: silent truncation (C2) and the 26-letter alphabet (C4) -/

/-- C2 (evidence): on the four-symbol input `"abcd"` every code word has two
bits; decoding the valid stream with one dangling `'1'` appended returns the
decoded text normally, silently dropping the unmatched trailing bit instead
of failing with a malformed-stream error. -/
theorem decode_silent_truncation :
    Huffman.init "abcd".toList = Except.ok ⟨"abcd".toList, []⟩ ∧
    Huffman.encode_huffman ⟨"abcd".toList, []⟩ =
      Except.ok (⟨"abcd".toList,
        [('d', ['1', '1']), ('c', ['1', '0']), ('b', ['0', '1']), ('a', ['0', '0'])]⟩,
        "00011011".toList) ∧
    Huffman.decode_huffman
      ⟨"abcd".toList,
        [('d', ['1', '1']), ('c', ['1', '0']), ('b', ['0', '1']), ('a', ['0', '0'])]⟩
      "000110111".toList = Except.ok "abcd".toList :=
  ⟨by decide, by decide, by decide⟩




set_option maxHeartbeats 4000000 in
/-- Evaluating the full encode pipeline on the 26-letter alphabet. -/
theorem alpha_encode_eq :
    Huffman.encode_huffman ⟨alphabet, []⟩ = Except.ok (⟨alphabet, alphaDict⟩, alphaStream) := by
  decide

/-- C4 (counterexample): on the 26-letter uniform alphabet the generated
table contains code words that are neither 5 nor 6 bits long (the codes for
`'u'` … `'z'` have 4 bits). -/
theorem alphabet_code_not_five_six :
    Huffman.init alphabet = Except.ok ⟨alphabet, []⟩ ∧
    Huffman.encode_huffman ⟨alphabet, []⟩ = Except.ok (⟨alphabet, alphaDict⟩, alphaStream) ∧
    ¬ (∀ kv ∈ alphaDict, kv.2.length = 5 ∨ kv.2.length = 6) :=
  ⟨by decide, alpha_encode_eq, by decide⟩

/-- C4 (amended): on the 26-letter uniform alphabet every generated code
word has 4 = ⌊log2 26⌋ or 5 = ⌊log2 26⌋ + 1 bits. -/
theorem alphabet_code_four_five :
    Huffman.init alphabet = Except.ok ⟨alphabet, []⟩ ∧
    Huffman.encode_huffman ⟨alphabet, []⟩ = Except.ok (⟨alphabet, alphaDict⟩, alphaStream) ∧
    (∀ kv ∈ alphaDict, kv.2.length = 4 ∨ kv.2.length = 5) :=
  ⟨by decide, alpha_encode_eq, by decide⟩

/-! ### Witnesses: the general theorems applied at concrete inputs -/

theorem huffman_round_trip_witness :
    ∃ (h h' : Huffman) (e : List Char),
      Huffman.init ['a', 'b'] = Except.ok h ∧
      h.encode_huffman = Except.ok (h', e) ∧
      h'.decode_huffman e = Except.ok ['a', 'b'] :=
  huffman_round_trip ['a', 'b'] (by decide)

theorem table_no_code_overlap_witness :
    ¬ ((['0'] : Pattern) <+: (['1'] : Pattern)) :=
  table_no_code_overlap ['a', 'b'] (by decide) ⟨['a', 'b'], []⟩
    ⟨['a', 'b'], [('b', ['1']), ('a', ['0'])]⟩ ['0', '1'] (by decide) (by decide)
    'a' 'b' ['0'] ['1'] (by decide) (by decide) (by decide)

theorem single_symbol_case_witness :
    ∃ (h h' : Huffman) (e : List Char),
      Huffman.init (List.replicate 3 'a') = Except.ok h ∧
      h.encode_huffman = Except.ok (h', e) ∧
      h'.dictionary = [('a', ['1'])] ∧
      e.length = 3 :=
  single_symbol_case 'a' 3 (by omega)

theorem compression_ratio_formula_witness :
    Huffman.get_compression_ratio ⟨['a'], []⟩ ['1'] =
      Except.ok (1 - ((['1'] : List Char).length : ℚ) /
        (((⟨['a'], []⟩ : Huffman).data.length : ℚ) * 8)) :=
  compression_ratio_formula.1 ⟨['a'], []⟩ ['1'] (by decide) (by decide)

theorem missing_code_error_witness :
    Huffman.encodePriv ⟨['a'], [('b', ['1'])]⟩ = Except.error "Invalid huffman key." :=
  missing_code_error ⟨['a'], [('b', ['1'])]⟩ (by decide) 'a' (by decide) (by decide)

theorem encoded_length_sum_witness :
    (['0', '1'] : List Char).length = ((['a', 'b'] : List Char).dedup.map fun s =>
      (['a', 'b'] : List Char).count s *
        ((dfind (⟨['a', 'b'], [('b', ['1']), ('a', ['0'])]⟩ : Huffman).dictionary s).getD
          []).length).sum :=
  encoded_length_sum ['a', 'b'] (by decide) ⟨['a', 'b'], []⟩
    ⟨['a', 'b'], [('b', ['1']), ('a', ['0'])]⟩ ['0', '1'] (by decide) (by decide)

theorem set_dictionary_merge_witness :
    ∃ (h' : Huffman) (e : List Char),
      ((⟨['a'], []⟩ : Huffman).set_dictionary [('z', ['0'])]).encode_huffman =
        Except.ok (h', e) ∧
      dfind h'.dictionary 'z' = dfind [('z', ['0'])] 'z' :=
  set_dictionary_merge ['a'] (by decide) [('z', ['0'])] 'z' (by decide) ⟨['a'], []⟩ (by decide)
